import Mathlib

/-!
Shallow embedding of `src/bowling-api.go` (package main): a single bowling
game's state, the `Roll` mutation, the `Score` computation with strike and
spare look-ahead, and the `POST /roll` HTTP handler's control flow.

Go slice indexing panics when out of bounds; the embedding models every
indexing operation fallibly (`Option`), with `none` standing for the panic.
Go `int` values are carried as `Int`; where the fixed 64-bit width of the
machine integer is material (additions can overflow, which decides the
monotonicity claim C4), the scoring loop is modelled a second time at
machine width via `wrap64` and `ScoreW`.
-/

namespace Bowling

/-- Constant `allPins = 10` from the Go source. -/
def allPins : Int := 10

/-- Constant `framesPerGame = 10` from the Go source. -/
def framesPerGame : Nat := 10

/-- Constant `maxThrowsPerGame = 21` from the Go source. -/
def maxThrowsPerGame : Nat := 21

/-- `type Game struct { rolls []int; current int }`. -/
structure Game where
  rolls : List Int
  current : Nat
deriving Repr, DecidableEq

/-- `NewGame`: a zeroed rolls slice of length `maxThrowsPerGame`, cursor 0. -/
def NewGame : Game :=
  { rolls := List.replicate maxThrowsPerGame 0, current := 0 }

/-- Go slice read `l[i]`: `none` models the out-of-bounds panic. -/
def sliceGet (l : List Int) (i : Nat) : Option Int := l[i]?

/-- Go slice write `l[i] = v`: `none` models the out-of-bounds panic. -/
def sliceSet (l : List Int) (i : Nat) (v : Int) : Option (List Int) :=
  if i < l.length then some (l.set i v) else none

/-- `Roll`: `gm.rolls[gm.current] = pins; gm.current++`. -/
def Roll (gm : Game) (pins : Int) : Option Game :=
  (sliceSet gm.rolls gm.current pins).map
    (fun r => { rolls := r, current := gm.current + 1 })

/-- `framePointsAt`: `gm.rolls[throw] + gm.rolls[throw+1]`. -/
def framePointsAt (gm : Game) (throw : Nat) : Option Int := do
  let a ← sliceGet gm.rolls throw
  let b ← sliceGet gm.rolls (throw + 1)
  pure (a + b)

/-- `isStrike`: `gm.rolls[throw] == allPins`. -/
def isStrike (gm : Game) (throw : Nat) : Option Bool := do
  let a ← sliceGet gm.rolls throw
  pure (a = allPins)

/-- `strikeBonusFor`: `allPins + gm.framePointsAt(throw+1)`. -/
def strikeBonusFor (gm : Game) (throw : Nat) : Option Int := do
  let f ← framePointsAt gm (throw + 1)
  pure (allPins + f)

/-- `isSpare`: `gm.framePointsAt(throw) == allPins`. -/
def isSpare (gm : Game) (throw : Nat) : Option Bool := do
  let f ← framePointsAt gm throw
  pure (f = allPins)

/-- `spareBonusFor`: `allPins + gm.rolls[throw+2]`. -/
def spareBonusFor (gm : Game) (throw : Nat) : Option Int := do
  let b ← sliceGet gm.rolls (throw + 2)
  pure (allPins + b)

/-- The body of `Score`'s `for` loop, indexed by the number of frames still
to score (the Go loop counts `frame` upward to `framesPerGame`; counting the
remaining frames down is the same iteration), carrying the throw cursor and
the running `sum`. -/
def scoreLoop (gm : Game) : Nat → Nat → Int → Option Int
  | 0, _, sum => some sum
  | fuel + 1, throw, sum => do
    let st ← isStrike gm throw
    if st then
      let b ← strikeBonusFor gm throw
      scoreLoop gm fuel (throw + 1) (sum + b)
    else
      let sp ← isSpare gm throw
      if sp then
        let b ← spareBonusFor gm throw
        scoreLoop gm fuel (throw + 2) (sum + b)
      else
        let p ← framePointsAt gm throw
        scoreLoop gm fuel (throw + 2) (sum + p)

/-- `Score`: ten frames starting from throw 0 with `sum = 0`. -/
def Score (gm : Game) : Option Int := scoreLoop gm framesPerGame 0 0

/-- The Go method call `gm.Score()` as a state transformer: the method body
assigns none of `gm`'s fields, so the receiver comes back unchanged. -/
def ScoreCall (gm : Game) : Option Int × Game := (Score gm, gm)

/-- Total read used by the proof-side total score: index `i` of `l`,
defaulting to 0 out of range (in-bounds reads agree with `sliceGet`). -/
def getD0 (l : List Int) (i : Nat) : Int := (l[i]?).getD 0

/-- Total counterpart of the `Score` loop over an arbitrary throw
function; the bridge lemmas show it agrees with `scoreLoop` whenever every
read is in bounds. -/
def scoreF (r : Nat → Int) : Nat → Nat → Int
  | 0, _ => 0
  | fuel + 1, throw =>
    if r throw = allPins then
      (allPins + (r (throw + 1) + r (throw + 2))) + scoreF r fuel (throw + 1)
    else if r throw + r (throw + 1) = allPins then
      (allPins + r (throw + 2)) + scoreF r fuel (throw + 2)
    else
      (r throw + r (throw + 1)) + scoreF r fuel (throw + 2)

/-- Total score of a rolls list. -/
def scoreT (l : List Int) : Int := scoreF (getD0 l) framesPerGame 0

lemma sliceGet_eq_getD0 {l : List Int} {i : Nat} (hl : l.length = 21)
    (hi : i ≤ 20) : sliceGet l i = some (getD0 l i) := by
  have hlt : i < l.length := by omega
  simp [sliceGet, getD0, List.getElem?_eq_getElem hlt]

lemma framePointsAt_eq {gm : Game} {t : Nat} (hl : gm.rolls.length = 21)
    (ht : t + 1 ≤ 20) :
    framePointsAt gm t = some (getD0 gm.rolls t + getD0 gm.rolls (t + 1)) := by
  simp [framePointsAt, sliceGet_eq_getD0 hl (by omega : t ≤ 20),
    sliceGet_eq_getD0 hl ht]

lemma isStrike_eq {gm : Game} {t : Nat} (hl : gm.rolls.length = 21)
    (ht : t ≤ 20) :
    isStrike gm t = some (decide (getD0 gm.rolls t = allPins)) := by
  simp [isStrike, sliceGet_eq_getD0 hl ht]

lemma strikeBonusFor_eq {gm : Game} {t : Nat} (hl : gm.rolls.length = 21)
    (ht : t + 2 ≤ 20) :
    strikeBonusFor gm t =
      some (allPins + (getD0 gm.rolls (t + 1) + getD0 gm.rolls (t + 2))) := by
  have : t + 1 + 1 = t + 2 := by omega
  simp [strikeBonusFor, framePointsAt_eq hl (by omega : t + 1 + 1 ≤ 20), this]

lemma isSpare_eq {gm : Game} {t : Nat} (hl : gm.rolls.length = 21)
    (ht : t + 1 ≤ 20) :
    isSpare gm t =
      some (decide (getD0 gm.rolls t + getD0 gm.rolls (t + 1) = allPins)) := by
  simp [isSpare, framePointsAt_eq hl ht]

lemma spareBonusFor_eq {gm : Game} {t : Nat} (hl : gm.rolls.length = 21)
    (ht : t + 2 ≤ 20) :
    spareBonusFor gm t = some (allPins + getD0 gm.rolls (t + 2)) := by
  simp [spareBonusFor, sliceGet_eq_getD0 hl ht]

/-- Bridge: whenever the cursor invariant `throw + 2·fuel ≤ 20` holds and the
rolls slice has the allocated capacity, the loop never goes out of bounds and
computes the total `scoreF`. -/
lemma scoreLoop_eq_scoreF {gm : Game} (hl : gm.rolls.length = 21) :
    ∀ (fuel throw : Nat) (sum : Int), throw + 2 * fuel ≤ 20 →
      scoreLoop gm fuel throw sum =
        some (sum + scoreF (getD0 gm.rolls) fuel throw) := by
  intro fuel
  induction fuel with
  | zero => intro throw sum _; simp [scoreLoop, scoreF]
  | succ n ih =>
    intro throw sum hb
    have h0 : throw ≤ 20 := by omega
    have h1 : throw + 1 ≤ 20 := by omega
    have h2 : throw + 2 ≤ 20 := by omega
    rw [scoreLoop, isStrike_eq hl h0, strikeBonusFor_eq hl h2,
      isSpare_eq hl h1, spareBonusFor_eq hl h2, framePointsAt_eq hl h1]
    by_cases hst : getD0 gm.rolls throw = allPins
    · simp only [hst, decide_True, Option.bind_eq_bind, Option.some_bind, if_true]
      rw [ih (throw + 1) _ (by omega), scoreF, if_pos hst]
      congr 1
      ring
    · by_cases hsp : getD0 gm.rolls throw + getD0 gm.rolls (throw + 1) = allPins
      · simp only [hst, hsp, decide_True, decide_False, Option.bind_eq_bind, Option.some_bind,
          Bool.false_eq_true, if_true, if_false]
        rw [ih (throw + 2) _ (by omega), scoreF, if_neg hst, if_pos hsp]
        congr 1
        ring
      · simp only [hst, hsp, decide_False, Option.bind_eq_bind, Option.some_bind,
          Bool.false_eq_true, if_false]
        rw [ih (throw + 2) _ (by omega), scoreF, if_neg hst, if_neg hsp]
        congr 1
        ring

/-- `Score` agrees with the total `scoreT` on every full-capacity game. -/
lemma Score_eq_scoreT {gm : Game} (hl : gm.rolls.length = 21) :
    Score gm = some (scoreT gm.rolls) := by
  have := scoreLoop_eq_scoreF hl framesPerGame 0 0 (by norm_num [framesPerGame])
  simpa [Score, scoreT] using this

/-- The scoring loop never reads the cursor field. -/
lemma scoreLoop_cursor_irrel (r : List Int) (c c' : Nat) :
    ∀ (fuel t : Nat) (sum : Int),
      scoreLoop ⟨r, c⟩ fuel t sum = scoreLoop ⟨r, c'⟩ fuel t sum := by
  intro fuel
  induction fuel with
  | zero => intro t sum; rfl
  | succ n ih =>
    intro t sum
    rw [scoreLoop, scoreLoop]
    simp only [Option.bind_eq_bind]
    refine Option.bind_congr' rfl fun st _ => ?_
    cases st with
    | true =>
      rw [if_pos rfl, if_pos rfl]
      exact Option.bind_congr' rfl fun b _ => ih (t + 1) (sum + b)
    | false =>
      rw [if_neg Bool.false_ne_true, if_neg Bool.false_ne_true]
      refine Option.bind_congr' rfl fun sp _ => ?_
      cases sp with
      | true =>
        rw [if_pos rfl, if_pos rfl]
        exact Option.bind_congr' rfl fun b _ => ih (t + 2) (sum + b)
      | false =>
        rw [if_neg Bool.false_ne_true, if_neg Bool.false_ne_true]
        exact Option.bind_congr' rfl fun p _ => ih (t + 2) (sum + p)

/-- The reference ten-frame loop, stated from the spec's words (§4.2): per
frame, a strike scores `rolls[t] + rolls[t+1] + rolls[t+2]` and advances the
cursor by 1; a spare scores `10 + rolls[t+2]` and advances by 2; an open
frame scores `rolls[t] + rolls[t+1]` and advances by 2. -/
def refScoreLoop (r : List Int) : Nat → Nat → Int
  | 0, _ => 0
  | fuel + 1, t =>
    if getD0 r t = (10 : Int) then
      (getD0 r t + getD0 r (t + 1) + getD0 r (t + 2)) + refScoreLoop r fuel (t + 1)
    else if getD0 r t + getD0 r (t + 1) = (10 : Int) then
      ((10 : Int) + getD0 r (t + 2)) + refScoreLoop r fuel (t + 2)
    else
      (getD0 r t + getD0 r (t + 1)) + refScoreLoop r fuel (t + 2)

/-- The reference algorithm's total: sum of the ten frame scores. -/
def refScore (r : List Int) : Int := refScoreLoop r 10 0

lemma refScoreLoop_eq_scoreF (r : List Int) :
    ∀ (fuel t : Nat), refScoreLoop r fuel t = scoreF (getD0 r) fuel t := by
  intro fuel
  induction fuel with
  | zero => intro t; rfl
  | succ n ih =>
    intro t
    rw [refScoreLoop, scoreF]
    simp only [allPins]
    by_cases hst : getD0 r t = (10 : Int)
    · rw [if_pos hst, if_pos hst, ih, hst]
      ring
    · rw [if_neg hst, if_neg hst]
      by_cases hsp : getD0 r t + getD0 r (t + 1) = (10 : Int)
      · rw [if_pos hsp, if_pos hsp, ih]
      · rw [if_neg hsp, if_neg hsp, ih]

/-- A game state holding the given throws in order, the remaining slots at
their zero default, the cursor past the last recorded throw. -/
def mkGame (throws : List Int) : Game :=
  ⟨throws ++ List.replicate (maxThrowsPerGame - throws.length) 0, throws.length⟩

end Bowling

namespace Bowling

/-- C1: for every rolls array of 21 integers, `Score` returns exactly the
value of the reference ten-frame algorithm (strike: three-throw sum, advance
1; spare: 10 plus next throw, advance 2; open: two-throw sum, advance 2). -/
theorem C1_score_matches_reference (l : List Int) (c : Nat)
    (hl : l.length = 21) : Score ⟨l, c⟩ = some (refScore l) := by
  have hl' : (⟨l, c⟩ : Game).rolls.length = 21 := hl
  rw [Score_eq_scoreT hl']
  simp [scoreT, refScore, refScoreLoop_eq_scoreF, framesPerGame]

theorem C1_witness :
    Score ⟨List.replicate 21 0, 0⟩ = some (refScore (List.replicate 21 0)) :=
  C1_score_matches_reference (List.replicate 21 0) 0 (by simp)

/-- C2: the spec's concrete games: a perfect game (12 throws of 10) scores
300; throws 10, 3, 4 then 16 zeros score 24; twenty throws of 1 score 20. -/
theorem C2_concrete_games :
    Score (mkGame (List.replicate 12 10)) = some 300 ∧
    Score (mkGame (10 :: 3 :: 4 :: List.replicate 16 0)) = some 24 ∧
    Score (mkGame (List.replicate 20 1)) = some 20 := by
  refine ⟨?_, ?_, ?_⟩ <;> rfl

/-- C3: on any game whose rolls slice has the allocated capacity of 21,
`Score` never reaches the out-of-bounds branch of an indexing operation:
it always returns a value. -/
theorem C3_score_never_out_of_bounds (g : Game) (hl : g.rolls.length = 21) :
    (Score g).isSome := by
  rw [Score_eq_scoreT hl]
  rfl

theorem C3_witness : (Score NewGame).isSome :=
  C3_score_never_out_of_bounds NewGame (by simp [NewGame, maxThrowsPerGame])

/-- C5: `Score` is pure: the method call leaves the game state unchanged,
and a second call on the resulting state returns the same value. -/
theorem C5_score_pure (g : Game) :
    (ScoreCall g).2 = g ∧ (ScoreCall ((ScoreCall g).2)).1 = (ScoreCall g).1 :=
  ⟨rfl, rfl⟩

/-- C9: `Score` depends only on the rolls array, never on the cursor: two
states with element-wise equal rolls get the same score. -/
theorem C9_score_ignores_cursor (g g' : Game) (h : g.rolls = g'.rolls) :
    Score g = Score g' := by
  obtain ⟨r, c⟩ := g
  obtain ⟨r', c'⟩ := g'
  simp only at h
  subst h
  exact scoreLoop_cursor_irrel r c c' framesPerGame 0 0

theorem C9_witness :
    Score ⟨List.replicate 21 0, 0⟩ = Score ⟨List.replicate 21 0, 5⟩ :=
  C9_score_ignores_cursor ⟨List.replicate 21 0, 0⟩ ⟨List.replicate 21 0, 5⟩ rfl

/-- C6: with the cursor inside the allocated 21 slots, `Roll pins` writes
`pins` (any integer, unchecked) at the cursor, bumps the cursor by one, and
leaves every other slot unchanged. -/
theorem C6_roll_effect (g : Game) (pins : Int) (hl : g.rolls.length = 21)
    (hc : g.current < 21) :
    ∃ g', Roll g pins = some g' ∧
      g'.current = g.current + 1 ∧
      g'.rolls.length = 21 ∧
      getD0 g'.rolls g.current = pins ∧
      ∀ i, i ≠ g.current → getD0 g'.rolls i = getD0 g.rolls i := by
  have hlt : g.current < g.rolls.length := by omega
  refine ⟨⟨g.rolls.set g.current pins, g.current + 1⟩, ?_, rfl, ?_, ?_, ?_⟩
  · simp [Roll, sliceSet, hlt]
  · simpa using hl
  · simp [getD0, List.getElem?_set_self hlt]
  · intro i hi
    simp [getD0, List.getElem?_set_ne (Ne.symm hi)]

theorem C6_witness :
    ∃ g', Roll NewGame 7 = some g' ∧
      g'.current = NewGame.current + 1 ∧
      g'.rolls.length = 21 ∧
      getD0 g'.rolls NewGame.current = 7 ∧
      ∀ i, i ≠ NewGame.current → getD0 g'.rolls i = getD0 NewGame.rolls i :=
  C6_roll_effect NewGame 7 (by simp [NewGame, maxThrowsPerGame]) (by decide)

/-- C7: on a game with the allocated 21-slot rolls slice, `Roll`'s write hits
the out-of-bounds branch exactly when the cursor has reached or passed 21:
the write is in bounds if and only if the cursor is strictly below 21. -/
theorem C7_roll_out_of_bounds_iff (g : Game) (pins : Int)
    (hl : g.rolls.length = 21) :
    (21 ≤ g.current → Roll g pins = none) ∧
    ((Roll g pins).isSome ↔ g.current < 21) := by
  by_cases hc : g.current < 21
  · refine ⟨fun h => absurd hc (by omega), ?_⟩
    simp [Roll, sliceSet, hl, hc]
  · refine ⟨fun _ => ?_, ?_⟩ <;> simp [Roll, sliceSet, hl, hc]

theorem C7_witness :
    (21 ≤ (⟨List.replicate 21 0, 21⟩ : Game).current →
      Roll ⟨List.replicate 21 0, 21⟩ 4 = none) ∧
    ((Roll (⟨List.replicate 21 0, 21⟩ : Game) 4).isSome ↔
      (⟨List.replicate 21 0, 21⟩ : Game).current < 21) :=
  C7_roll_out_of_bounds_iff ⟨List.replicate 21 0, 21⟩ 4 (by simp)

/-- A `POST /roll` request as the handler sees it: the HTTP method string and
the result of `json.Decoder.Decode` on the body (an external collaborator):
`none` models a body that fails to parse as the expected shape. -/
structure RollRequest where
  method : String
  pinsDecoded : Option Int

/-- The handler's observable reply: HTTP status and the JSON-encoded score
body, when one is written. -/
structure HttpResponse where
  status : Nat
  score : Option Int
deriving Repr, DecidableEq

/-- `http.MethodPost`. -/
def methodPost : String := "POST"

/-- `RollHandler`: reject non-POST with 405; reject an undecodable body with
400 before touching the game; otherwise `Roll`, reply 201 and the new score.
The outer `Option` models a panic inside `Roll` or `Score`. -/
def RollHandler (gm : Game) (req : RollRequest) :
    Option (HttpResponse × Game) :=
  if req.method ≠ methodPost then some (⟨405, none⟩, gm)
  else
    match req.pinsDecoded with
    | none => some (⟨400, none⟩, gm)
    | some pins => do
      let gm' ← Roll gm pins
      let s ← Score gm'
      pure (⟨201, some s⟩, gm')

/-- C8: when a POST /roll body fails to parse, the handler answers 400 and
hands back the game state exactly as it was: no roll is recorded. -/
theorem C8_malformed_body_400 (gm : Game) (req : RollRequest)
    (hm : req.method = methodPost) (hb : req.pinsDecoded = none) :
    RollHandler gm req = some (⟨400, none⟩, gm) := by
  simp [RollHandler, hm, hb]

theorem C8_witness :
    RollHandler NewGame ⟨methodPost, none⟩ = some (⟨400, none⟩, NewGame) :=
  C8_malformed_body_400 NewGame ⟨methodPost, none⟩ rfl rfl

/-- Every throw the total loop can read is non-negative, so every frame's
score is non-negative. -/
lemma scoreF_nonneg (r : Nat → Int) (hr : ∀ i, 0 ≤ r i) :
    ∀ (fuel t : Nat), 0 ≤ scoreF r fuel t := by
  intro fuel
  induction fuel with
  | zero => intro t; simp [scoreF]
  | succ n ih =>
    intro t
    rw [scoreF]
    have h1 := hr t
    have h2 := hr (t + 1)
    have h3 := hr (t + 2)
    have hA := ih (t + 1)
    have hB := ih (t + 2)
    split_ifs with hst hsp <;> simp [allPins] at * <;> omega

/-- Every throw the total loop can read is at most 10, so every frame adds at
most 30. -/
lemma scoreF_le (r : Nat → Int) (hr : ∀ i, r i ≤ 10) :
    ∀ (fuel t : Nat), scoreF r fuel t ≤ 30 * fuel := by
  intro fuel
  induction fuel with
  | zero => intro t; simp [scoreF]
  | succ n ih =>
    intro t
    rw [scoreF]
    have h1 := hr t
    have h2 := hr (t + 1)
    have h3 := hr (t + 2)
    have hA := ih (t + 1)
    have hB := ih (t + 2)
    split_ifs with hst hsp <;> simp [allPins] at * <;> omega

lemma getD0_bounds {l : List Int} (hb : ∀ x ∈ l, 0 ≤ x ∧ x ≤ 10) (i : Nat) :
    0 ≤ getD0 l i ∧ getD0 l i ≤ 10 := by
  unfold getD0
  cases h : l[i]? with
  | none => simp
  | some a => simpa using hb a (List.getElem?_mem h)

/-- C10: on a full-capacity rolls array whose entries all lie in 0..10, the
score lies in 0..300. -/
theorem C10_score_bounded (g : Game) (hl : g.rolls.length = 21)
    (hb : ∀ x ∈ g.rolls, 0 ≤ x ∧ x ≤ 10) :
    ∃ s, Score g = some s ∧ 0 ≤ s ∧ s ≤ 300 := by
  refine ⟨scoreT g.rolls, Score_eq_scoreT hl, ?_, ?_⟩
  · exact scoreF_nonneg _ (fun i => (getD0_bounds hb i).1) framesPerGame 0
  · have := scoreF_le (getD0 g.rolls) (fun i => (getD0_bounds hb i).2)
      framesPerGame 0
    simpa [scoreT, framesPerGame] using this

theorem C10_witness : ∃ s, Score NewGame = some s ∧ 0 ≤ s ∧ s ≤ 300 :=
  C10_score_bounded NewGame (by simp [NewGame, maxThrowsPerGame])
    (by intro x hx; simp [NewGame] at hx; simp [hx])

/-- The total loop reads no throw below its cursor. -/
lemma scoreF_congr (r r' : Nat → Int) :
    ∀ (fuel t : Nat), (∀ i, t ≤ i → r i = r' i) →
      scoreF r fuel t = scoreF r' fuel t := by
  intro fuel
  induction fuel with
  | zero => intro t _; rfl
  | succ n ih =>
    intro t h
    have e0 := h t le_rfl
    have e1 := h (t + 1) (by omega)
    have e2 := h (t + 2) (by omega)
    rw [scoreF, scoreF, e0, e1, e2, ih (t + 1) (fun i hi => h i (by omega)),
      ih (t + 2) (fun i hi => h i (by omega))]

/-- From an all-zero tail the loop scores nothing: every remaining frame is
an open frame of two zero throws. -/
lemma scoreF_zero_tail (r : Nat → Int) :
    ∀ (fuel t : Nat), (∀ i, t ≤ i → r i = 0) → scoreF r fuel t = 0 := by
  intro fuel
  induction fuel with
  | zero => intro t _; rfl
  | succ n ih =>
    intro t h
    rw [scoreF, h t le_rfl, h (t + 1) (by omega), h (t + 2) (by omega),
      ih (t + 2) (fun i hi => h i (by omega))]
    norm_num [allPins]

/-- Writing a non-negative throw `p` at the first unrecorded position `k`
(everything from `k` on still zero) cannot lower the total score. -/
lemma scoreF_mono_update (r r' : Nat → Int) (k : Nat) (p : Int)
    (hagree : ∀ i, i ≠ k → r' i = r i)
    (hk : r' k = p)
    (hzero : ∀ i, k ≤ i → r i = 0)
    (hp : 0 ≤ p)
    (hr : ∀ i, 0 ≤ r i) :
    ∀ (fuel t : Nat), t ≤ k → scoreF r fuel t ≤ scoreF r' fuel t := by
  have hr' : ∀ i, 0 ≤ r' i := by
    intro i
    by_cases hik : i = k
    · rw [hik, hk]; exact hp
    · rw [hagree i hik]; exact hr i
  have hle : ∀ i, r i ≤ r' i := by
    intro i
    by_cases hik : i = k
    · subst hik; rw [hk, hzero i le_rfl]; exact hp
    · rw [hagree i hik]
  intro fuel
  induction fuel with
  | zero => intro t _; exact le_rfl
  | succ n ih =>
    intro t htk
    rcases lt_trichotomy (t + 1) k with hA | hB | hC
    · -- the updated slot is beyond this frame's first two throws
      have ht : t ≠ k := by omega
      have ht1 : t + 1 ≠ k := by omega
      rw [scoreF, scoreF, hagree t ht, hagree (t + 1) ht1]
      by_cases hst : r t = allPins
      · rw [if_pos hst, if_pos hst]
        have h1 := ih (t + 1) (by omega)
        have h2 := hle (t + 2)
        linarith
      · rw [if_neg hst, if_neg hst]
        by_cases hsp : r t + r (t + 1) = allPins
        · rw [if_pos hsp, if_pos hsp]
          have h1 := ih (t + 2) (by omega)
          have h2 := hle (t + 2)
          linarith
        · rw [if_neg hsp, if_neg hsp]
          have h1 := ih (t + 2) (by omega)
          linarith
    · -- the updated slot is this frame's second throw
      have ht : t ≠ k := by omega
      have ht2 : t + 2 ≠ k := by omega
      have hzt1 : r (t + 1) = 0 := hzero (t + 1) (by omega)
      have hzt2 : r (t + 2) = 0 := hzero (t + 2) (by omega)
      have hr't1 : r' (t + 1) = p := by rw [hB]; exact hk
      have hr't2 : r' (t + 2) = 0 := by rw [hagree (t + 2) ht2]; exact hzt2
      rw [scoreF, scoreF, hagree t ht]
      by_cases hst : r t = allPins
      · rw [if_pos hst, if_pos hst]
        have hLrec : scoreF r n (t + 1) = 0 :=
          scoreF_zero_tail r n (t + 1) (fun i hi => hzero i (by omega))
        have hRrec : 0 ≤ scoreF r' n (t + 1) := scoreF_nonneg r' hr' n (t + 1)
        rw [hzt1, hzt2, hr't1, hr't2, hLrec]
        linarith
      · have hnsp : ¬(r t + r (t + 1) = allPins) := by
          rw [hzt1, add_zero]; exact hst
        rw [if_neg hst, if_neg hst, if_neg hnsp]
        have hLrec : scoreF r n (t + 2) = 0 :=
          scoreF_zero_tail r n (t + 2) (fun i hi => hzero i (by omega))
        have hRrec : scoreF r' n (t + 2) = 0 :=
          scoreF_zero_tail r' n (t + 2) (fun i hi => by
            rw [hagree i (by omega)]; exact hzero i (by omega))
        by_cases hsp' : r t + r' (t + 1) = allPins
        · rw [if_pos hsp']
          have hb : r t ≤ allPins := by
            rw [hr't1] at hsp'; linarith
          rw [hzt1, hLrec, hRrec, hr't2]
          linarith
        · rw [if_neg hsp']
          rw [hzt1, hLrec, hRrec, hr't1]
          linarith
    · -- the cursor sits exactly on the updated slot
      have htk' : t = k := by omega
      subst htk'
      rw [scoreF_zero_tail r (n + 1) t (fun i hi => hzero i hi)]
      exact scoreF_nonneg r' hr' (n + 1) t

/-- A sequence of `Roll` calls; `none` models a panic in any of them. -/
def rollList (gm : Game) : List Int → Option Game
  | [] => some gm
  | p :: ps => (Roll gm p).bind fun g' => rollList g' ps

lemma getD0_append_replicate_ge {ps : List Int} {m i : Nat}
    (h : ps.length ≤ i) : getD0 (ps ++ List.replicate m (0 : Int)) i = 0 := by
  rw [getD0, List.getElem?_append_right h, List.getElem?_replicate]
  split <;> simp

lemma getD0_nonneg {l : List Int} (h : ∀ x ∈ l, 0 ≤ x) (i : Nat) :
    0 ≤ getD0 l i := by
  unfold getD0
  cases hh : l[i]? with
  | none => simp
  | some a => simpa using h a (List.getElem?_mem hh)

/-- Recording throws one at a time from a partially recorded game fills the
zeroed slots left to right. -/
lemma rollList_mkGame :
    ∀ (ps pre : List Int), pre.length + ps.length ≤ 21 →
      rollList (mkGame pre) ps = some (mkGame (pre ++ ps)) := by
  intro ps
  induction ps with
  | nil => intro pre _; simp [rollList]
  | cons p ps ih =>
    intro pre h
    have hn : pre.length < 21 := by
      have := h; simp only [List.length_cons] at this; omega
    have hroll : Roll (mkGame pre) p = some (mkGame (pre ++ [p])) := by
      have hcond : pre.length <
          (pre ++ List.replicate (maxThrowsPerGame - pre.length) 0).length := by
        simp [maxThrowsPerGame]; omega
      have hm : maxThrowsPerGame - pre.length =
          (maxThrowsPerGame - (pre.length + 1)) + 1 := by
        simp [maxThrowsPerGame]; omega
      simp only [Roll, mkGame, sliceSet, if_pos hcond, Option.map_some',
        Option.some.injEq, Game.mk.injEq]
      refine ⟨?_, by simp⟩
      rw [List.set_append_right _ _ le_rfl, Nat.sub_self, hm,
        List.replicate_succ, List.set_cons_zero, List.append_cons]
      simp
    rw [rollList, hroll, Option.some_bind,
      ih (pre ++ [p]) (by simp at h ⊢; omega)]
    simp

/-- Writing one more non-negative throw at the first free slot never lowers
the idealized, overflow-free total `scoreT`. -/
lemma scoreT_mkGame_mono (ps : List Int) (p : Int)
    (hps : ∀ x ∈ ps, 0 ≤ x) (hp : 0 ≤ p) :
    scoreT (mkGame ps).rolls ≤ scoreT (mkGame (ps ++ [p])).rolls := by
  have hr : ∀ x ∈ (mkGame ps).rolls, 0 ≤ x := by
    intro x hx
    rcases List.mem_append.1 hx with hx' | hx'
    · exact hps x hx'
    · rw [List.eq_of_mem_replicate hx']
  have hlenp : (ps ++ [p]).length = ps.length + 1 := by simp
  refine scoreF_mono_update (getD0 (mkGame ps).rolls)
    (getD0 (mkGame (ps ++ [p])).rolls) ps.length p ?_ ?_ ?_ hp
    (getD0_nonneg hr) framesPerGame 0 (Nat.zero_le _)
  · intro i hi
    rcases Nat.lt_or_ge i ps.length with hil | hig
    · show getD0 ((ps ++ [p]) ++ _) i = getD0 (ps ++ _) i
      rw [getD0, getD0, List.getElem?_append_left (by simp; omega),
        List.getElem?_append_left hil, List.getElem?_append_left hil]
    · have hig' : ps.length + 1 ≤ i := by omega
      show getD0 ((ps ++ [p]) ++ _) i = getD0 (ps ++ _) i
      rw [getD0_append_replicate_ge (by simpa [hlenp] using hig'),
        getD0_append_replicate_ge hig]
  · show getD0 ((ps ++ [p]) ++ _) ps.length = p
    rw [getD0, List.getElem?_append_left (by simp),
      List.getElem?_append_right le_rfl, Nat.sub_self]
    rfl
  · intro i hi
    exact getD0_append_replicate_ge hi

/-- 64-bit two's-complement normalization: the value a Go `int` addition
actually stores on the 64-bit platforms the server runs on. -/
def wrap64 (x : Int) : Int := (x + 2 ^ 63) % 2 ^ 64 - 2 ^ 63

/-- The `Score` loop at Go's machine width: the same ten-frame loop as
`scoreF`, with every addition the program performs wrapped to 64 bits (the
two-throw sum inside `framePointsAt`, the bonus additions, and the running
`sum` accumulation), and the spare comparison reading the wrapped two-throw
sum, exactly as the program does. Reads are total (`getD0`) because every
read of a 21-slot game is in bounds (C3). -/
def scoreLoopW (r : Nat → Int) : Nat → Nat → Int → Int
  | 0, _, sum => sum
  | fuel + 1, t, sum =>
    if r t = allPins then
      scoreLoopW r fuel (t + 1)
        (wrap64 (sum + wrap64 (allPins + wrap64 (r (t + 1) + r (t + 2)))))
    else if wrap64 (r t + r (t + 1)) = allPins then
      scoreLoopW r fuel (t + 2)
        (wrap64 (sum + wrap64 (allPins + r (t + 2))))
    else
      scoreLoopW r fuel (t + 2)
        (wrap64 (sum + wrap64 (r t + r (t + 1))))

/-- `Score` at machine width, over a rolls list. -/
def ScoreW (l : List Int) : Int := scoreLoopW (getD0 l) framesPerGame 0 0

/-- 64-bit normalization fixes every in-range value. -/
lemma wrap64_eq_self {x : Int} (h1 : -(2 ^ 63) ≤ x) (h2 : x < 2 ^ 63) :
    wrap64 x = x := by
  have h3 : (0 : Int) ≤ x + 2 ^ 63 := by linarith
  have h4 : x + 2 ^ 63 < 2 ^ 64 := by
    have he : ((2 : Int) ^ 64) = 2 ^ 63 + 2 ^ 63 := by norm_num
    linarith
  rw [wrap64, Int.emod_eq_of_lt h3 h4]
  ring

/-- With every throw in `[0, 2 ^ 58]` no addition in the loop leaves the
64-bit range, so the machine-width loop agrees with the idealized one; the
running sum stays below `2 ^ 63` by the fuel-indexed budget. -/
lemma scoreLoopW_eq_scoreF (r : Nat → Int)
    (h0 : ∀ i, 0 ≤ r i) (hB : ∀ i, r i ≤ 2 ^ 58) :
    ∀ (fuel t : Nat) (sum : Int), 0 ≤ sum →
      sum + (10 + 2 ^ 59) * (fuel : Int) < 2 ^ 63 →
      scoreLoopW r fuel t sum = sum + scoreF r fuel t := by
  have hA : allPins = (10 : Int) := rfl
  have h63 : (0 : Int) < 2 ^ 63 := by positivity
  have h59 : (2 : Int) ^ 58 + 2 ^ 58 ≤ 2 ^ 59 := by norm_num
  have hC63 : (10 : Int) + 2 ^ 59 < 2 ^ 63 := by norm_num
  intro fuel
  induction fuel with
  | zero => intro t sum _ _; simp [scoreLoopW, scoreF]
  | succ n ih =>
    intro t sum hs hub
    have ha0 := h0 t
    have ha1 := h0 (t + 1)
    have ha2 := h0 (t + 2)
    have hb0 := hB t
    have hb1 := hB (t + 1)
    have hb2 := hB (t + 2)
    have hCn : (0 : Int) ≤ (10 + 2 ^ 59) * (n : Int) := by positivity
    have hub' : sum + (10 + 2 ^ 59) * (n : Int) + (10 + 2 ^ 59) < 2 ^ 63 := by
      have hc : ((n + 1 : Nat) : Int) = (n : Int) + 1 := by push_cast; ring
      have hexp : ((10 : Int) + 2 ^ 59) * ((n : Int) + 1)
          = (10 + 2 ^ 59) * (n : Int) + (10 + 2 ^ 59) := by ring
      rw [hc, hexp] at hub
      linarith
    have hw01 : wrap64 (r t + r (t + 1)) = r t + r (t + 1) :=
      wrap64_eq_self (by linarith) (by linarith)
    have hw12 : wrap64 (r (t + 1) + r (t + 2)) = r (t + 1) + r (t + 2) :=
      wrap64_eq_self (by linarith) (by linarith)
    rw [scoreLoopW, scoreF, hw01, hw12]
    by_cases hst : r t = allPins
    · rw [if_pos hst, if_pos hst]
      have hin : wrap64 (allPins + (r (t + 1) + r (t + 2)))
          = allPins + (r (t + 1) + r (t + 2)) :=
        wrap64_eq_self (by rw [hA]; linarith) (by rw [hA]; linarith)
      rw [hin]
      have hsum : wrap64 (sum + (allPins + (r (t + 1) + r (t + 2))))
          = sum + (allPins + (r (t + 1) + r (t + 2))) :=
        wrap64_eq_self (by rw [hA]; linarith) (by rw [hA]; linarith)
      rw [hsum, ih (t + 1) (sum + (allPins + (r (t + 1) + r (t + 2))))
        (by rw [hA]; linarith) (by rw [hA]; linarith)]
      ring
    · rw [if_neg hst, if_neg hst]
      by_cases hsp : r t + r (t + 1) = allPins
      · rw [if_pos hsp, if_pos hsp]
        have hin : wrap64 (allPins + r (t + 2)) = allPins + r (t + 2) :=
          wrap64_eq_self (by rw [hA]; linarith) (by rw [hA]; linarith)
        rw [hin]
        have hsum : wrap64 (sum + (allPins + r (t + 2)))
            = sum + (allPins + r (t + 2)) :=
          wrap64_eq_self (by rw [hA]; linarith) (by rw [hA]; linarith)
        rw [hsum, ih (t + 2) (sum + (allPins + r (t + 2)))
          (by rw [hA]; linarith) (by rw [hA]; linarith)]
        ring
      · rw [if_neg hsp, if_neg hsp]
        have hsum : wrap64 (sum + (r t + r (t + 1))) = sum + (r t + r (t + 1)) :=
          wrap64_eq_self (by linarith) (by linarith)
        rw [hsum, ih (t + 2) (sum + (r t + r (t + 1)))
          (by linarith) (by linarith)]
        ring

lemma getD0_bounds_le {l : List Int} {B : Int} (hB : 0 ≤ B)
    (hb : ∀ x ∈ l, 0 ≤ x ∧ x ≤ B) (i : Nat) :
    0 ≤ getD0 l i ∧ getD0 l i ≤ B := by
  unfold getD0
  cases h : l[i]? with
  | none => simpa using hB
  | some a => simpa using hb a (List.getElem?_mem h)

/-- On throw lists bounded by `2 ^ 58` the machine-width score equals the
idealized one. -/
lemma ScoreW_eq_scoreT {l : List Int}
    (hb : ∀ x ∈ l, 0 ≤ x ∧ x ≤ 2 ^ 58) : ScoreW l = scoreT l := by
  have h0 : ∀ i, 0 ≤ getD0 l i :=
    fun i => (getD0_bounds_le (by positivity) hb i).1
  have hB : ∀ i, getD0 l i ≤ 2 ^ 58 :=
    fun i => (getD0_bounds_le (by positivity) hb i).2
  have := scoreLoopW_eq_scoreF (getD0 l) h0 hB framesPerGame 0 0 le_rfl
    (by norm_num [framesPerGame])
  simpa [ScoreW, scoreT] using this

/-- C4 counterexample: at Go's 64-bit integer width the claimed monotonicity
fails as stated. Rolling 2^62 pins twice from a fresh game is a sequence of
two `Roll` calls with non-negative (and `int64`-representable) pin values,
yet the machine-width score drops from 2^62 to -2^63: the second frame-point
sum 2^62 + 2^62 wraps negative. -/
theorem C4_counterexample :
    (0 : Int) ≤ 2 ^ 62 ∧
    rollList NewGame [2 ^ 62] = some (mkGame [2 ^ 62]) ∧
    rollList NewGame [2 ^ 62, 2 ^ 62] = some (mkGame [2 ^ 62, 2 ^ 62]) ∧
    ScoreW (mkGame [2 ^ 62]).rolls = 2 ^ 62 ∧
    ScoreW (mkGame [2 ^ 62, 2 ^ 62]).rolls = -2 ^ 63 ∧
    ScoreW (mkGame [2 ^ 62, 2 ^ 62]).rolls < ScoreW (mkGame [2 ^ 62]).rolls := by
  refine ⟨by norm_num, by decide, by decide, by decide, by decide, by decide⟩

/-- C4 (amended): at Go's machine width, the spec's monotonicity holds once
each pin count is additionally bounded so that no 64-bit sum can overflow:
from a fresh game, along any sequence of at most 21 `Roll` calls whose pin
values lie in `[0, 2 ^ 58]`, the machine-width score after each call is at
least the score immediately before it. -/
theorem C4_score_monotone_wrapped (ps : List Int) (p : Int)
    (hps : ∀ x ∈ ps, 0 ≤ x ∧ x ≤ 2 ^ 58) (hp : 0 ≤ p ∧ p ≤ 2 ^ 58)
    (hlen : ps.length < 21) (g g' : Game)
    (hg : rollList NewGame ps = some g)
    (hg' : rollList NewGame (ps ++ [p]) = some g') :
    ScoreW g.rolls ≤ ScoreW g'.rolls := by
  have hnew : NewGame = mkGame [] := rfl
  have h1 : rollList NewGame ps = some (mkGame ps) := by
    rw [hnew, rollList_mkGame ps [] (by simpa using hlen.le)]
    simp
  have h2 : rollList NewGame (ps ++ [p]) = some (mkGame (ps ++ [p])) := by
    rw [hnew, rollList_mkGame (ps ++ [p]) [] (by simp; omega)]
    simp
  rw [h1, Option.some_inj] at hg
  rw [h2, Option.some_inj] at hg'
  subst hg hg'
  have hbnd : ∀ x ∈ (mkGame ps).rolls, 0 ≤ x ∧ x ≤ 2 ^ 58 := by
    intro x hx
    rcases List.mem_append.1 hx with hx' | hx'
    · exact hps x hx'
    · rw [List.eq_of_mem_replicate hx']
      exact ⟨le_rfl, by positivity⟩
  have hbnd' : ∀ x ∈ (mkGame (ps ++ [p])).rolls, 0 ≤ x ∧ x ≤ 2 ^ 58 := by
    intro x hx
    rcases List.mem_append.1 hx with hx' | hx'
    · rcases List.mem_append.1 hx' with hx'' | hx''
      · exact hps x hx''
      · obtain rfl := List.mem_singleton.1 hx''
        exact hp
    · rw [List.eq_of_mem_replicate hx']
      exact ⟨le_rfl, by positivity⟩
  rw [ScoreW_eq_scoreT hbnd, ScoreW_eq_scoreT hbnd']
  exact scoreT_mkGame_mono ps p (fun x hx => (hps x hx).1) hp.1

theorem C4_witness :
    ScoreW (mkGame [5, 5]).rolls ≤ ScoreW (mkGame [5, 5, 7]).rolls :=
  C4_score_monotone_wrapped [5, 5] 7 (by decide) (by decide) (by decide)
    (mkGame [5, 5]) (mkGame [5, 5, 7]) rfl rfl

end Bowling
